import Mathlib

/-!
# SMEP: tokenizer, shunting-yard converter and stack evaluator

A shallow embedding of `src/main.cpp`.

* C++ `double` is kept abstract: every definition is parametric in a type `α`
  of numbers together with a record `DoubleOps α` of the six primitives the
  program uses on doubles (`+`, `-`, `*`, `/`, `std::pow`, `== 0`).  All general
  theorems therefore hold for IEEE doubles as well as for any other arithmetic.
  `exactOps` is the instance on `ℚ` used for concrete evaluations.
* `std::vector<Token>` is a `List`, appended at the back; `std::stack<T>` is a
  `List` whose head is the top of the stack.
* C++ exceptions and undefined behaviour are results of type `Failure`.
-/

namespace SMEP

/-! ## Data model -/

/-- The primitives on `double` that `apply_operator` uses (main.cpp:31-35). -/
structure DoubleOps (α : Type) where
  /-- `a + b` -/
  add : α → α → α
  /-- `a - b` -/
  sub : α → α → α
  /-- `a * b` -/
  mul : α → α → α
  /-- `a / b` -/
  div : α → α → α
  /-- `std::pow(a, b)` -/
  pow : α → α → α
  /-- The test `b == 0` of main.cpp:34. -/
  eqZero : α → Bool

/-- Exact rational arithmetic.  It agrees with `double` arithmetic whenever the
operands and the result are exactly representable (small integers, dyadic
fractions); `pow` is only meaningful for integer exponents. -/
def exactOps : DoubleOps ℚ where
  add := fun a b => a + b
  sub := fun a b => a - b
  mul := fun a b => a * b
  div := fun a b => a / b
  pow := fun a b => if b.den = 1 then a ^ b.num else 0
  eqZero := fun b => decide (b = 0)

/-- `struct Number`, `struct Operator`, `struct Parenthesis` and
`using Token = std::variant<...>` (main.cpp:15-18). -/
inductive Token (α : Type) where
  | Number (value : α)
  | Operator (symbol : Char)
  | Parenthesis (symbol : Char)
  deriving DecidableEq, Repr

/-- The ways in which a call can fail to return a value. -/
inductive Failure where
  /-- `throw std::runtime_error("Division by zero")` (main.cpp:34). -/
  | division_by_zero
  /-- `throw std::invalid_argument("Unknown operator")` (main.cpp:36). -/
  | unknown_operator
  /-- `top()` or `pop()` on an empty `std::stack` (main.cpp:83, 100, 101, 105):
  undefined behaviour; no exception is thrown. -/
  | empty_stack
  deriving DecidableEq, Repr

/-! ## Operators -/

/-- `precedence` (main.cpp:20-27). -/
def precedence (op : Char) : Nat :=
  if op = '^' then 3
  else if op = '*' ∨ op = '/' then 2
  else if op = '+' ∨ op = '-' then 1
  else 0

/-- `apply_operator` (main.cpp:29-38). -/
def apply_operator {α : Type} (D : DoubleOps α) (a b : α) (op : Char) : Except Failure α :=
  if op = '+' then .ok (D.add a b)
  else if op = '-' then .ok (D.sub a b)
  else if op = '*' then .ok (D.mul a b)
  else if op = '/' then
    if D.eqZero b = true then .error Failure.division_by_zero else .ok (D.div a b)
  else if op = '^' then .ok (D.pow a b)
  else .error Failure.unknown_operator

/-! ## Lexer -/

/-- Whitespace skipped by `stream >> ch` (`std::isspace` in the "C" locale). -/
def isspace (ch : Char) : Bool :=
  ch = ' ' || ch = '\t' || ch = '\n' || ch = '\x0b' || ch = '\x0c' || ch = '\r'

/-- `std::isdigit(ch)`. -/
def isdigit (ch : Char) : Bool :=
  decide ('0' ≤ ch ∧ ch ≤ '9')

/-- `std::strchr("+-*/^", ch)` as a truth value (main.cpp:50).  The terminating
NUL of the string literal is part of the searched string, so the NUL character
is found as well. -/
def strchr_operators (ch : Char) : Bool :=
  ch = '+' || ch = '-' || ch = '*' || ch = '/' || ch = '^' || ch = '\x00'

/-- The formatted extraction `stream >> num` of main.cpp:48, which belongs to the
C++ standard library and is taken as a parameter.  Applied to the unread
characters, the first of which is the digit or `.` that was put back,
it yields the value stored in `num`, how many characters after that first one
were consumed, and whether the stream is still good afterwards. -/
structure NumGet (α : Type) where
  extract : List Char → α × Nat × Bool

/-- The loop of `tokenize` (main.cpp:44-55).  `skip` counts characters that an
earlier numeric extraction has already consumed. -/
def tokenize_loop {α : Type} (G : NumGet α) : Nat → List Char → List (Token α)
  | _, [] => []
  | skip + 1, _ :: cs => tokenize_loop G skip cs
  | 0, ch :: cs =>
    if isspace ch then tokenize_loop G 0 cs
    else if isdigit ch || ch = '.' then
      match G.extract (ch :: cs) with
      | (num, used, true) => Token.Number num :: tokenize_loop G used cs
      | (num, _, false) => [Token.Number num]
    else if strchr_operators ch then Token.Operator ch :: tokenize_loop G 0 cs
    else if ch = '(' ∨ ch = ')' then Token.Parenthesis ch :: tokenize_loop G 0 cs
    else tokenize_loop G 0 cs

/-- `tokenize` (main.cpp:40-57). -/
def tokenize {α : Type} (G : NumGet α) (expr : String) : List (Token α) :=
  tokenize_loop G 0 expr.data

/-! ## Shunting-yard converter -/

/-- The inner `while` of the operator branch (main.cpp:67-74): pops operators of
precedence at least that of `op` from the stack to the output. -/
def pop_higher {α : Type} (op : Char) :
    List (Token α) → List (Token α) → List (Token α) × List (Token α)
  | out, [] => (out, [])
  | out, Token.Operator top_op :: operators =>
    if precedence top_op ≥ precedence op then
      pop_higher op (out ++ [Token.Operator top_op]) operators
    else (out, Token.Operator top_op :: operators)
  | out, Token.Number v :: operators => (out, Token.Number v :: operators)
  | out, Token.Parenthesis s :: operators => (out, Token.Parenthesis s :: operators)

/-- The inner `while` of the `)` branch (main.cpp:79-82): pops to the output until
the stack is empty or its top is a `Parenthesis`. -/
def pop_to_parenthesis {α : Type} :
    List (Token α) → List (Token α) → List (Token α) × List (Token α)
  | out, [] => (out, [])
  | out, Token.Parenthesis s :: operators => (out, Token.Parenthesis s :: operators)
  | out, Token.Number v :: operators =>
    pop_to_parenthesis (out ++ [Token.Number v]) operators
  | out, Token.Operator o :: operators =>
    pop_to_parenthesis (out ++ [Token.Operator o]) operators

/-- One iteration of the `for` loop of `infix_to_postfix` (main.cpp:62-85) on the
state `(out, operators)`. -/
def convert_step {α : Type} (out operators : List (Token α)) (token : Token α) :
    Except Failure (List (Token α) × List (Token α)) :=
  match token with
  | Token.Number _ => .ok (out ++ [token], operators)
  | Token.Operator op =>
    .ok ((pop_higher op out operators).1, token :: (pop_higher op out operators).2)
  | Token.Parenthesis s =>
    if s = '(' then .ok (out, token :: operators)
    else if s = ')' then
      match (pop_to_parenthesis out operators).2 with
      | [] => .error Failure.empty_stack
      | _ :: rest => .ok ((pop_to_parenthesis out operators).1, rest)
    else .ok (out, operators)

/-- The `for` loop of `infix_to_postfix` (main.cpp:62-85). -/
def convert_loop {α : Type} :
    List (Token α) → List (Token α) → List (Token α) →
      Except Failure (List (Token α) × List (Token α))
  | [], out, operators => .ok (out, operators)
  | token :: tokens, out, operators =>
    match convert_step out operators token with
    | .ok (out', operators') => convert_loop tokens out' operators'
    | .error e => .error e

/-- The final `while` of `infix_to_postfix` (main.cpp:86-89): moves the whole
stack, top first, to the output. -/
def drain {α : Type} : List (Token α) → List (Token α) → List (Token α)
  | out, [] => out
  | out, top :: operators => drain (out ++ [top]) operators

/-- `infix_to_postfix` (main.cpp:59-91). -/
def infix_to_postfix {α : Type} (tokens : List (Token α)) : Except Failure (List (Token α)) :=
  match convert_loop tokens [] [] with
  | .ok (out, operators) => .ok (drain out operators)
  | .error e => .error e

/-! ## Postfix evaluator -/

/-- One iteration of the `for` loop of `evaluate_postfix` (main.cpp:95-104). -/
def eval_step {α : Type} (D : DoubleOps α) (values : List α) (token : Token α) :
    Except Failure (List α) :=
  match token with
  | Token.Number value => .ok (value :: values)
  | Token.Operator op =>
    match values with
    | [] => .error Failure.empty_stack
    | [_] => .error Failure.empty_stack
    | b :: a :: rest =>
      match apply_operator D a b op with
      | .ok r => .ok (r :: rest)
      | .error e => .error e
  | Token.Parenthesis _ => .ok values

/-- The `for` loop of `evaluate_postfix` (main.cpp:95-104). -/
def eval_loop {α : Type} (D : DoubleOps α) : List (Token α) → List α → Except Failure (List α)
  | [], values => .ok values
  | token :: tokens, values =>
    match eval_step D values token with
    | .ok values' => eval_loop D tokens values'
    | .error e => .error e

/-- `evaluate_postfix` (main.cpp:93-106). -/
def evaluate_postfix {α : Type} (D : DoubleOps α) (tokens : List (Token α)) : Except Failure α :=
  match eval_loop D tokens [] with
  | .ok (top :: _) => .ok top
  | .ok [] => .error Failure.empty_stack
  | .error e => .error e

/-- The conversion followed by the evaluation, as in the `try` block of `main`
(main.cpp:128-129). -/
def evaluate_tokens {α : Type} (D : DoubleOps α) (tokens : List (Token α)) : Except Failure α :=
  match infix_to_postfix tokens with
  | .ok out => evaluate_postfix D out
  | .error e => .error e

/-- The body of the `try` block of `main` (main.cpp:127-129) for one input line. -/
def evaluate_line {α : Type} (G : NumGet α) (D : DoubleOps α) (input : String) :
    Except Failure α :=
  evaluate_tokens D (tokenize G input)

/-! ## Reference notions used by the specification -/

/-- The five binary operators of the specification. -/
inductive BinOp where
  | plus
  | minus
  | times
  | divide
  | power
  deriving DecidableEq, Repr

/-- The symbol of a binary operator. -/
def BinOp.symbol : BinOp → Char
  | BinOp.plus => '+'
  | BinOp.minus => '-'
  | BinOp.times => '*'
  | BinOp.divide => '/'
  | BinOp.power => '^'

/-- Expression trees over numeric literals and the five binary operators. -/
inductive Expr (α : Type) where
  | Num (n : α)
  | Bin (op : BinOp) (l r : Expr α)
  deriving Repr

/-- The fully parenthesised token sequence of an expression tree. -/
def Expr.render {α : Type} : Expr α → List (Token α)
  | Expr.Num n => [Token.Number n]
  | Expr.Bin op l r =>
    [Token.Parenthesis '('] ++ l.render ++ [Token.Operator op.symbol] ++ r.render
      ++ [Token.Parenthesis ')']

/-- The post-order traversal of an expression tree. -/
def Expr.post {α : Type} : Expr α → List (Token α)
  | Expr.Num n => [Token.Number n]
  | Expr.Bin op l r => l.post ++ r.post ++ [Token.Operator op.symbol]

/-- The reference recursive evaluation: each node applies `apply_operator` to the
values of its children, the left child being evaluated first. -/
def Expr.value {α : Type} (D : DoubleOps α) : Expr α → Except Failure α
  | Expr.Num n => .ok n
  | Expr.Bin op l r =>
    match l.value D with
    | .error e => .error e
    | .ok a =>
      match r.value D with
      | .error e => .error e
      | .ok b => apply_operator D a b op.symbol

/-- The tokens `op1, n1, ..., opk, nk` of an unparenthesised chain. -/
def chain_tail {α : Type} : List (Char × α) → List (Token α)
  | [] => []
  | (op, n) :: rest => Token.Operator op :: Token.Number n :: chain_tail rest

/-- The tokens `n0, op1, n1, ..., opk, nk` of an unparenthesised chain. -/
def chain {α : Type} (n0 : α) (rest : List (Char × α)) : List (Token α) :=
  Token.Number n0 :: chain_tail rest

/-- The left-nested fold
`apply_operator(...apply_operator(apply_operator(n0, n1, op1), n2, op2)..., nk, opk)`,
which fails as soon as one of its steps fails. -/
def fold_left {α : Type} (D : DoubleOps α) : α → List (Char × α) → Except Failure α
  | acc, [] => .ok acc
  | acc, (op, n) :: rest =>
    match apply_operator D acc n op with
    | .ok v => fold_left D v rest
    | .error e => .error e

/-- What the converter still has to emit for a chain whose operator `op` is
pending on the stack: `op`, then each further operand followed by the operator
before it. -/
def pending {α : Type} (op : Char) : List (Char × α) → List (Token α)
  | [] => [Token.Operator op]
  | (op', n) :: rest => Token.Operator op :: Token.Number n :: pending op' rest

/-- The loop invariant of `infix_to_postfix` about parentheses: the output holds
no `Parenthesis` token, and every `Parenthesis` token on the operator stack has
the symbol `(`. -/
def paren_invariant {α : Type} (out operators : List (Token α)) : Prop :=
  (∀ t ∈ out, ∀ s, t ≠ Token.Parenthesis s)
    ∧ (∀ t ∈ operators, ∀ s, t = Token.Parenthesis s → s = '(')

/-- The lexer as the specification words it for texts without numeric literals:
each of `+ - * / ^` becomes an `Operator`, each of `( )` a `Parenthesis`, and
every other character is dropped. -/
def symbol_scan {α : Type} : List Char → List (Token α)
  | [] => []
  | ch :: cs =>
    if ch = '+' ∨ ch = '-' ∨ ch = '*' ∨ ch = '/' ∨ ch = '^' then
      Token.Operator ch :: symbol_scan cs
    else if ch = '(' ∨ ch = ')' then Token.Parenthesis ch :: symbol_scan cs
    else symbol_scan cs

/-- The value of a decimal digit. -/
def digit_value (ch : Char) : Nat :=
  ch.toNat - '0'.toNat

/-- Reads the leading decimal digits of a text into the accumulator; yields the
accumulated number and how many digits were read. -/
def read_digits : Nat → List Char → Nat × Nat
  | acc, [] => (acc, 0)
  | acc, ch :: cs =>
    if isdigit ch then
      ((read_digits (acc * 10 + digit_value ch) cs).1,
        (read_digits (acc * 10 + digit_value ch) cs).2 + 1)
    else (acc, 0)

/-- An instance of `stream >> num` on `ℚ` for plain decimal literals: digits with
an optional `.` and further digits, no exponent.  A literal without any digit
(a lone `.`) stores `0` and leaves the stream failed.  It is used for concrete
evaluations only; the general theorems are stated for every `NumGet`. -/
def decimalGet : NumGet ℚ where
  extract := fun cs =>
    match cs.drop (read_digits 0 cs).2 with
    | '.' :: fs =>
      if (read_digits 0 cs).2 + (read_digits (read_digits 0 cs).1 fs).2 = 0 then (0, 0, false)
      else
        (((read_digits (read_digits 0 cs).1 fs).1 : ℚ)
            / (10 : ℚ) ^ (read_digits (read_digits 0 cs).1 fs).2,
          (read_digits 0 cs).2 + (read_digits (read_digits 0 cs).1 fs).2, true)
    | _ =>
      if (read_digits 0 cs).2 = 0 then (0, 0, false)
      else (((read_digits 0 cs).1 : ℚ), (read_digits 0 cs).2 - 1, true)

/-- Whether a token is the `Parenthesis` with symbol `(`. -/
def Token.is_open {α : Type} : Token α → Bool
  | Token.Parenthesis s => decide (s = '(')
  | _ => false

/-- Whether a token is the `Parenthesis` with symbol `)`. -/
def Token.is_close {α : Type} : Token α → Bool
  | Token.Parenthesis s => decide (s = ')')
  | _ => false

/-- `std::holds_alternative<Parenthesis>(token)`. -/
def Token.is_parenthesis {α : Type} : Token α → Bool
  | Token.Parenthesis _ => true
  | _ => false

/-- `std::holds_alternative<Number>(token)`. -/
def Token.is_number {α : Type} : Token α → Bool
  | Token.Number _ => true
  | _ => false

/-- `std::holds_alternative<Operator>(token)`. -/
def Token.is_operator {α : Type} : Token α → Bool
  | Token.Operator _ => true
  | _ => false

/-- The number of `(` tokens of a token sequence. -/
def opens {α : Type} (tokens : List (Token α)) : Nat :=
  tokens.countP Token.is_open

/-- The number of `)` tokens of a token sequence. -/
def closes {α : Type} (tokens : List (Token α)) : Nat :=
  tokens.countP Token.is_close

/-- The number of `Parenthesis` tokens of a token sequence. -/
def parens {α : Type} (tokens : List (Token α)) : Nat :=
  tokens.countP Token.is_parenthesis

/-- The subsequence of `Number` tokens of a token sequence. -/
def numbers {α : Type} (tokens : List (Token α)) : List (Token α) :=
  tokens.filter Token.is_number

/-- A token sequence with its `Parenthesis` tokens removed. -/
def without_parentheses {α : Type} (tokens : List (Token α)) : List (Token α) :=
  tokens.filter (fun t => !t.is_parenthesis)

/-! ## General lemmas -/

theorem drain_eq_append {α : Type} (operators out : List (Token α)) :
    drain out operators = out ++ operators := by
  induction operators generalizing out with
  | nil => simp [drain]
  | cons top operators ih => simp [drain, ih]

theorem convert_loop_number {α : Type} (v : α) (tokens out operators : List (Token α)) :
    convert_loop (Token.Number v :: tokens) out operators
      = convert_loop tokens (out ++ [Token.Number v]) operators := by
  simp [convert_loop, convert_step]

theorem convert_loop_open {α : Type} (tokens out operators : List (Token α)) :
    convert_loop (Token.Parenthesis '(' :: tokens) out operators
      = convert_loop tokens out (Token.Parenthesis '(' :: operators) := by
  simp [convert_loop, convert_step]

theorem convert_loop_operator {α : Type} (op : Char) (tokens out operators : List (Token α)) :
    convert_loop (Token.Operator op :: tokens) out operators
      = convert_loop tokens (pop_higher op out operators).1
          (Token.Operator op :: (pop_higher op out operators).2) := by
  simp [convert_loop, convert_step]

/-- Processing the rendering of a tree appends its post-order traversal to the
output and restores the operator stack. -/
theorem convert_loop_render {α : Type} (e : Expr α) (tokens out operators : List (Token α)) :
    convert_loop (e.render ++ tokens) out operators
      = convert_loop tokens (out ++ e.post) operators := by
  induction e generalizing tokens out operators with
  | Num n => simp [Expr.render, Expr.post, convert_loop_number]
  | Bin op l r ihl ihr =>
    simp only [Expr.render, Expr.post, List.append_assoc, List.singleton_append,
      List.cons_append, List.nil_append]
    rw [convert_loop_open, ihl, convert_loop_operator]
    simp only [pop_higher]
    rw [ihr]
    simp [convert_loop, convert_step, pop_to_parenthesis]

/-- Evaluating the post-order traversal of a tree pushes the reference value of
the tree, or fails as the reference evaluation does. -/
theorem eval_loop_post {α : Type} (D : DoubleOps α) (e : Expr α) (tokens : List (Token α))
    (values : List α) :
    eval_loop D (e.post ++ tokens) values
      = match e.value D with
        | .ok v => eval_loop D tokens (v :: values)
        | .error err => .error err := by
  induction e generalizing tokens values with
  | Num n => simp [Expr.post, Expr.value, eval_loop, eval_step]
  | Bin op l r ihl ihr =>
    simp only [Expr.post, Expr.value, List.append_assoc]
    rw [ihl]
    cases hl : l.value D with
    | error err => rfl
    | ok a =>
      simp only
      rw [ihr]
      cases hr : r.value D with
      | error err => rfl
      | ok b =>
        simp only [List.singleton_append, eval_loop, eval_step]
        cases apply_operator D a b op.symbol <;> rfl

theorem apply_operator_symbol_error {α : Type} (D : DoubleOps α) (a b : α) (op : BinOp)
    (err : Failure) (h : apply_operator D a b op.symbol = .error err) :
    err = Failure.division_by_zero := by
  cases op <;> simp [apply_operator, BinOp.symbol] at h
  split at h
  · simpa using h.symm
  · simp at h

theorem value_error {α : Type} (D : DoubleOps α) (e : Expr α) (err : Failure)
    (h : e.value D = .error err) : err = Failure.division_by_zero := by
  induction e with
  | Num n => simp [Expr.value] at h
  | Bin op l r ihl ihr =>
    simp only [Expr.value] at h
    cases hl : l.value D with
    | error e1 =>
      rw [hl] at h
      simp only [Except.error.injEq] at h
      exact ihl (h ▸ hl)
    | ok a =>
      rw [hl] at h
      cases hr : r.value D with
      | error e2 =>
        rw [hr] at h
        simp only [Except.error.injEq] at h
        exact ihr (h ▸ hr)
      | ok b =>
        rw [hr] at h
        exact apply_operator_symbol_error D a b op err h

/-! ## Claims -/

/-- C1: for every expression tree over numeric literals and the operators
`+ - * / ^`, converting and evaluating its fully parenthesised token sequence
gives exactly the result of the reference recursive evaluation: the same value
when that evaluation succeeds and the same failure when it fails, and the only
failure the reference evaluation has is division by zero. -/
theorem C1_pipeline_matches_reference {α : Type} (D : DoubleOps α) (e : Expr α) :
    evaluate_tokens D e.render = e.value D
      ∧ ∀ err, e.value D = .error err → err = Failure.division_by_zero := by
  refine ⟨?_, fun err h => value_error D e err h⟩
  have hc := convert_loop_render e [] [] []
  simp only [List.append_nil, List.nil_append] at hc
  have he := eval_loop_post D e [] []
  simp only [List.append_nil] at he
  simp only [evaluate_tokens, infix_to_postfix, hc, convert_loop, drain, evaluate_postfix, he]
  cases e.value D <;> simp [eval_loop]

/-- C2: for every expression tree, `infix_to_postfix` maps the fully parenthesised
token sequence of the tree to its post-order traversal, and processing that
token sequence from any output `out` and any operator stack `S` ends with
output `out ++ post e` and stack `S`. -/
theorem C2_render_converts_to_post {α : Type} (e : Expr α) :
    infix_to_postfix e.render = .ok e.post
      ∧ ∀ out S : List (Token α), convert_loop e.render out S = .ok (out ++ e.post, S) := by
  have key : ∀ out S : List (Token α), convert_loop e.render out S = .ok (out ++ e.post, S) := by
    intro out S
    have hc := convert_loop_render e [] out S
    simpa [convert_loop] using hc
  refine ⟨?_, key⟩
  simp [ infix_to_postfix, key, drain]

/-! ### Parentheses in the output -/

theorem pop_higher_invariant {α : Type} (op : Char) (operators out : List (Token α))
    (h : paren_invariant out operators) :
    paren_invariant (pop_higher op out operators).1 (pop_higher op out operators).2 := by
  induction operators generalizing out with
  | nil => simpa [pop_higher] using h
  | cons top operators ih =>
    cases top with
    | Number v => simpa [pop_higher] using h
    | Parenthesis s => simpa [pop_higher] using h
    | Operator top_op =>
      simp only [pop_higher]
      split
      · apply ih
        refine ⟨?_, fun t ht => h.2 t (List.mem_cons_of_mem _ ht)⟩
        intro t ht
        rcases List.mem_append.1 ht with ht | ht
        · exact h.1 t ht
        · simp only [List.mem_singleton] at ht
          subst ht
          intro s hs
          cases hs
      · exact h

theorem pop_to_parenthesis_invariant {α : Type} (operators out : List (Token α))
    (h : paren_invariant out operators) :
    paren_invariant (pop_to_parenthesis out operators).1 (pop_to_parenthesis out operators).2 := by
  induction operators generalizing out with
  | nil => simpa [pop_to_parenthesis] using h
  | cons top operators ih =>
    cases top with
    | Parenthesis s => simpa [pop_to_parenthesis] using h
    | Number v =>
      simp only [pop_to_parenthesis]
      apply ih
      refine ⟨?_, fun t ht => h.2 t (List.mem_cons_of_mem _ ht)⟩
      intro t ht
      rcases List.mem_append.1 ht with ht | ht
      · exact h.1 t ht
      · simp only [List.mem_singleton] at ht
        subst ht
        intro s hs
        cases hs
    | Operator o =>
      simp only [pop_to_parenthesis]
      apply ih
      refine ⟨?_, fun t ht => h.2 t (List.mem_cons_of_mem _ ht)⟩
      intro t ht
      rcases List.mem_append.1 ht with ht | ht
      · exact h.1 t ht
      · simp only [List.mem_singleton] at ht
        subst ht
        intro s hs
        cases hs

theorem convert_step_invariant {α : Type} (token : Token α)
    (out operators out' operators' : List (Token α))
    (h : paren_invariant out operators)
    (hs : convert_step out operators token = .ok (out', operators')) :
    paren_invariant out' operators' := by
  cases token with
  | Number v =>
    simp only [convert_step, Except.ok.injEq, Prod.mk.injEq] at hs
    obtain ⟨rfl, rfl⟩ := hs
    refine ⟨?_, h.2⟩
    intro t ht
    rcases List.mem_append.1 ht with ht | ht
    · exact h.1 t ht
    · simp only [List.mem_singleton] at ht
      subst ht
      intro s hs
      cases hs
  | Operator op =>
    simp only [convert_step, Except.ok.injEq, Prod.mk.injEq] at hs
    obtain ⟨rfl, rfl⟩ := hs
    have hp := pop_higher_invariant op operators out h
    refine ⟨hp.1, ?_⟩
    intro t ht
    rcases List.mem_cons.1 ht with ht | ht
    · subst ht
      intro s hs
      cases hs
    · exact hp.2 t ht
  | Parenthesis s =>
    simp only [convert_step] at hs
    split at hs
    · rename_i hopen
      simp only [Except.ok.injEq, Prod.mk.injEq] at hs
      obtain ⟨rfl, rfl⟩ := hs
      refine ⟨h.1, ?_⟩
      intro t ht
      rcases List.mem_cons.1 ht with ht | ht
      · subst ht
        intro s' hs'
        cases hs'
        exact hopen
      · exact h.2 t ht
    · split at hs
      · have hp := pop_to_parenthesis_invariant operators out h
        split at hs
        · cases hs
        · rename_i top rest hrest
          simp only [Except.ok.injEq, Prod.mk.injEq] at hs
          obtain ⟨rfl, rfl⟩ := hs
          refine ⟨hp.1, ?_⟩
          intro t ht
          apply hp.2 t
          rw [hrest]
          exact List.mem_cons_of_mem _ ht
      · simp only [Except.ok.injEq, Prod.mk.injEq] at hs
        obtain ⟨rfl, rfl⟩ := hs
        exact h

theorem convert_loop_invariant {α : Type} (tokens out operators out' operators' : List (Token α))
    (h : paren_invariant out operators)
    (hs : convert_loop tokens out operators = .ok (out', operators')) :
    paren_invariant out' operators' := by
  induction tokens generalizing out operators with
  | nil =>
    simp only [convert_loop, Except.ok.injEq, Prod.mk.injEq] at hs
    obtain ⟨rfl, rfl⟩ := hs
    exact h
  | cons token tokens ih =>
    simp only [convert_loop] at hs
    cases hstep : convert_step out operators token with
    | error e => rw [hstep] at hs; cases hs
    | ok st =>
      obtain ⟨o1, s1⟩ := st
      rw [hstep] at hs
      exact ih o1 s1 (convert_step_invariant token out operators o1 s1 h hstep) hs

/-! ### Chains of operators of one precedence level -/

theorem convert_loop_chain {α : Type} (rest : List (Char × α)) (n : α) (out : List (Token α))
    (op : Char) (h : ∀ p ∈ rest, precedence p.1 = precedence op) :
    ∃ o s, convert_loop (Token.Number n :: chain_tail rest) out [Token.Operator op] = .ok (o, s)
      ∧ o ++ s = out ++ Token.Number n :: pending op rest := by
  induction rest generalizing n out op with
  | nil =>
    exact ⟨out ++ [Token.Number n], [Token.Operator op],
      by simp [chain_tail, convert_loop, convert_step], by simp [pending]⟩
  | cons p rest ih =>
    obtain ⟨op', n'⟩ := p
    have hop : precedence op' = precedence op := h (op', n') (List.mem_cons_self _ _)
    have hrest : ∀ q ∈ rest, precedence q.1 = precedence op' := fun q hq =>
      (h q (List.mem_cons_of_mem _ hq)).trans hop.symm
    obtain ⟨o, s, hconv, hout⟩ :=
      ih n' (out ++ [Token.Number n] ++ [Token.Operator op]) op' hrest
    refine ⟨o, s, ?_, ?_⟩
    · rw [← hconv]
      simp only [chain_tail]
      rw [convert_loop_number, convert_loop_operator]
      simp [pop_higher, hop]
    · rw [hout]
      simp [pending]

theorem eval_loop_pending {α : Type} (D : DoubleOps α) (rest : List (Char × α)) (op : Char)
    (n acc : α) (values : List α) :
    eval_loop D (pending op rest) (n :: acc :: values)
      = match fold_left D acc ((op, n) :: rest) with
        | .ok v => .ok (v :: values)
        | .error e => .error e := by
  induction rest generalizing op n acc with
  | nil =>
    simp only [pending, eval_loop, eval_step, fold_left]
    cases apply_operator D acc n op <;> rfl
  | cons p rest ih =>
    obtain ⟨op', n'⟩ := p
    simp only [pending, eval_loop, eval_step]
    rw [fold_left]
    cases apply_operator D acc n op with
    | error e => rfl
    | ok v =>
      simp only
      exact ih op' n' v

/-- C4: operators of one precedence level group to the left.  For all numbers
`n0..nk` and operator symbols `op1..opk` of one common precedence level (in
particular for `^` alone), converting and evaluating the tokens
`n0 op1 n1 ... opk nk` gives exactly the left-nested fold of `apply_operator`,
and fails exactly as that fold fails. -/
theorem C4_equal_precedence_groups_left {α : Type} (D : DoubleOps α) (n0 : α)
    (rest : List (Char × α)) (level : Nat) (h : ∀ p ∈ rest, precedence p.1 = level) :
    evaluate_tokens D (chain n0 rest) = fold_left D n0 rest := by
  cases rest with
  | nil =>
    simp [chain, chain_tail, fold_left, evaluate_tokens, infix_to_postfix, convert_loop,
      convert_step, drain, evaluate_postfix, eval_loop, eval_step]
  | cons p rest =>
    obtain ⟨op1, n1⟩ := p
    have hop : precedence op1 = level := h (op1, n1) (List.mem_cons_self _ _)
    have hrest : ∀ q ∈ rest, precedence q.1 = precedence op1 := fun q hq =>
      (h q (List.mem_cons_of_mem _ hq)).trans hop.symm
    obtain ⟨o, s, hconv, hout⟩ := convert_loop_chain rest n1 [Token.Number n0] op1 hrest
    have hc : convert_loop (chain n0 ((op1, n1) :: rest)) [] [] = .ok (o, s) := by
      rw [← hconv]
      simp only [chain, chain_tail]
      rw [convert_loop_number, convert_loop_operator]
      simp [pop_higher]
    have he := eval_loop_pending D rest op1 n1 n0 []
    simp only [evaluate_tokens, infix_to_postfix, hc, drain_eq_append, hout, evaluate_postfix,
      List.singleton_append, eval_loop, eval_step, he]
    cases fold_left D n0 ((op1, n1) :: rest) <;> rfl

/-- Witness for C4: `2 ^ 3 ^ 2` evaluates to `(2^3)^2 = 64`, not to
`2^(3^2) = 512`. -/
theorem C4_equal_precedence_groups_left_witness :
    (∀ p ∈ [('^', (3 : ℚ)), ('^', (2 : ℚ))], precedence p.1 = 3)
      ∧ evaluate_tokens exactOps (chain (2 : ℚ) [('^', 3), ('^', 2)])
          = fold_left exactOps 2 [('^', 3), ('^', 2)]
      ∧ fold_left exactOps (2 : ℚ) [('^', 3), ('^', 2)] = .ok 64
      ∧ (Except.ok 64 : Except Failure ℚ) ≠ .ok 512 :=
  ⟨by simp [precedence],
   C4_equal_precedence_groups_left exactOps 2 [('^', 3), ('^', 2)] 3 (by simp [precedence]),
   by simp [fold_left, apply_operator, exactOps]; norm_num,
   by simp⟩

/-! ### Precedence and parentheses on three operands -/

/-- C5: for all numbers `a b c` and operator symbols `op1 op2`, the tokens
`a op1 b op2 c` convert to `a b op1 c op2` when `op1` binds at least as
tightly as `op2`, and to `a b c op2 op1` when `op1` binds less tightly. -/
theorem C5_precedence_decides_order {α : Type} (a b c : α) (op1 op2 : Char) :
    (precedence op1 ≥ precedence op2 →
        infix_to_postfix [Token.Number a, Token.Operator op1, Token.Number b,
            Token.Operator op2, Token.Number c]
          = .ok [Token.Number a, Token.Number b, Token.Operator op1, Token.Number c,
              Token.Operator op2])
      ∧ (precedence op1 < precedence op2 →
        infix_to_postfix [Token.Number a, Token.Operator op1, Token.Number b,
            Token.Operator op2, Token.Number c]
          = .ok [Token.Number a, Token.Number b, Token.Number c, Token.Operator op2,
              Token.Operator op1]) := by
  constructor
  · intro h
    simp [ infix_to_postfix, convert_loop, convert_step, pop_higher, drain, h]
  · intro h
    simp [ infix_to_postfix, convert_loop, convert_step, pop_higher, drain, Nat.not_le.2 h]

/-- Witness for C5: `2 * 3 + 4` converts to `2 3 * 4 +` and evaluates to `10`;
`2 + 3 * 4` converts to `2 3 4 * +` and evaluates to `14`. -/
theorem C5_precedence_decides_order_witness :
    (precedence '*' ≥ precedence '+'
      ∧ infix_to_postfix [Token.Number (2 : ℚ), Token.Operator '*', Token.Number 3,
            Token.Operator '+', Token.Number 4]
          = .ok [Token.Number 2, Token.Number 3, Token.Operator '*', Token.Number 4,
              Token.Operator '+']
      ∧ evaluate_postfix exactOps [Token.Number (2 : ℚ), Token.Number 3, Token.Operator '*',
            Token.Number 4, Token.Operator '+'] = .ok 10)
      ∧ (precedence '+' < precedence '*'
      ∧ infix_to_postfix [Token.Number (2 : ℚ), Token.Operator '+', Token.Number 3,
            Token.Operator '*', Token.Number 4]
          = .ok [Token.Number 2, Token.Number 3, Token.Number 4, Token.Operator '*',
              Token.Operator '+']
      ∧ evaluate_postfix exactOps [Token.Number (2 : ℚ), Token.Number 3, Token.Number 4,
            Token.Operator '*', Token.Operator '+'] = .ok 14) :=
  ⟨⟨by simp [precedence],
    (C5_precedence_decides_order (2 : ℚ) 3 4 '*' '+').1 (by simp [precedence]),
    by simp [ evaluate_postfix, eval_loop, eval_step, apply_operator, exactOps]; norm_num⟩,
   ⟨by simp [precedence],
    (C5_precedence_decides_order (2 : ℚ) 3 4 '+' '*').2 (by simp [precedence]),
    by simp [ evaluate_postfix, eval_loop, eval_step, apply_operator, exactOps]; norm_num⟩⟩

/-- C6: parentheses override precedence.  For all numbers `a b c` and operator
symbols `op1 op2`, whatever their precedences, the tokens `( a op1 b ) op2 c`
convert to `a b op1 c op2`, and the pipeline evaluates them to
`apply_operator(apply_operator(a, b, op1), c, op2)`, failing as soon as one of
the two applications fails.  In particular `(2 + 3) * 4` evaluates to `20`. -/
theorem C6_parentheses_override_precedence :
    (∀ (α : Type) (D : DoubleOps α) (a b c : α) (op1 op2 : Char),
        infix_to_postfix [Token.Parenthesis '(', Token.Number a, Token.Operator op1,
            Token.Number b, Token.Parenthesis ')', Token.Operator op2, Token.Number c]
          = .ok [Token.Number a, Token.Number b, Token.Operator op1, Token.Number c,
              Token.Operator op2]
        ∧ evaluate_tokens D [Token.Parenthesis '(', Token.Number a, Token.Operator op1,
            Token.Number b, Token.Parenthesis ')', Token.Operator op2, Token.Number c]
          = match apply_operator D a b op1 with
            | .ok v => apply_operator D v c op2
            | .error e => .error e)
      ∧ evaluate_tokens exactOps [Token.Parenthesis '(', Token.Number (2 : ℚ),
            Token.Operator '+', Token.Number 3, Token.Parenthesis ')', Token.Operator '*',
            Token.Number 4] = .ok 20 := by
  have hconv : ∀ (α : Type) (a b c : α) (op1 op2 : Char),
      infix_to_postfix [Token.Parenthesis '(', Token.Number a, Token.Operator op1,
          Token.Number b, Token.Parenthesis ')', Token.Operator op2, Token.Number c]
        = .ok [Token.Number a, Token.Number b, Token.Operator op1, Token.Number c,
            Token.Operator op2] := by
    intro α a b c op1 op2
    simp [ infix_to_postfix, convert_loop, convert_step, pop_higher, pop_to_parenthesis, drain]
  have heval : ∀ (α : Type) (D : DoubleOps α) (a b c : α) (op1 op2 : Char),
      evaluate_tokens D [Token.Parenthesis '(', Token.Number a, Token.Operator op1,
          Token.Number b, Token.Parenthesis ')', Token.Operator op2, Token.Number c]
        = match apply_operator D a b op1 with
          | .ok v => apply_operator D v c op2
          | .error e => .error e := by
    intro α D a b c op1 op2
    simp only [evaluate_tokens, hconv, evaluate_postfix, eval_loop, eval_step]
    cases apply_operator D a b op1 with
    | error e => rfl
    | ok v =>
      simp only
      cases apply_operator D v c op2 <;> rfl
  refine ⟨fun α D a b c op1 op2 => ⟨hconv α a b c op1 op2, heval α D a b c op1 op2⟩, ?_⟩
  rw [heval]
  simp [apply_operator, exactOps]
  norm_num

/-! ### Failures of `apply_operator` -/

/-- C7: `apply_operator(a, b, '/')` fails with the division-by-zero error exactly
when the test `b == 0` holds, and returns `a / b` otherwise; hence for every `a`
and every `b` that compares equal to zero the pipeline on the tokens `a / b`
fails with division by zero instead of producing a value. -/
theorem C7_division_by_zero {α : Type} (D : DoubleOps α) (a b : α) :
    (apply_operator D a b '/' = .error Failure.division_by_zero ↔ D.eqZero b = true)
      ∧ (D.eqZero b ≠ true → apply_operator D a b '/' = .ok (D.div a b))
      ∧ (D.eqZero b = true →
          evaluate_tokens D [Token.Number a, Token.Operator '/', Token.Number b]
            = .error Failure.division_by_zero) := by
  refine ⟨?_, ?_, ?_⟩
  · by_cases hb : D.eqZero b = true <;> simp [apply_operator, hb]
  · intro hb
    simp [apply_operator, hb]
  · intro hb
    simp [evaluate_tokens, infix_to_postfix, convert_loop, convert_step, pop_higher, drain,
      evaluate_postfix, eval_loop, eval_step, apply_operator, hb]

/-- Witness for C7: `5 / 0` fails with division by zero, and `6 / 3` returns
the quotient. -/
theorem C7_division_by_zero_witness :
    exactOps.eqZero (0 : ℚ) = true
      ∧ evaluate_tokens exactOps [Token.Number (5 : ℚ), Token.Operator '/', Token.Number 0]
          = .error Failure.division_by_zero
      ∧ exactOps.eqZero (3 : ℚ) ≠ true
      ∧ apply_operator exactOps (6 : ℚ) 3 '/' = .ok (exactOps.div 6 3) :=
  ⟨by simp [exactOps],
   (C7_division_by_zero exactOps (5 : ℚ) 0).2.2 (by simp [exactOps]),
   by simp [exactOps],
   (C7_division_by_zero exactOps (6 : ℚ) 3).2.1 (by simp [exactOps])⟩

/-- C8: for all numbers `a b` and every character `op`, `apply_operator(a, b, op)`
fails with the unknown-operator error exactly when `op` is none of
`+ - * / ^`; hence `evaluate_postfix` on `a b op` fails with the
unknown-operator error for every such `op`. -/
theorem C8_unknown_operator {α : Type} (D : DoubleOps α) (a b : α) (op : Char) :
    (apply_operator D a b op = .error Failure.unknown_operator
        ↔ op ∉ ['+', '-', '*', '/', '^'])
      ∧ (op ∉ ['+', '-', '*', '/', '^'] →
          evaluate_postfix D [Token.Number a, Token.Number b, Token.Operator op]
            = .error Failure.unknown_operator) := by
  have hiff : apply_operator D a b op = .error Failure.unknown_operator
      ↔ op ∉ ['+', '-', '*', '/', '^'] := by
    simp only [List.mem_cons, List.mem_singleton, List.not_mem_nil, or_false, not_or]
    unfold apply_operator
    by_cases h1 : op = '+'
    · simp [h1]
    by_cases h2 : op = '-'
    · simp [h2]
    by_cases h3 : op = '*'
    · simp [h3]
    by_cases h4 : op = '/'
    · by_cases hb : D.eqZero b = true <;> simp [h4, hb]
    by_cases h5 : op = '^'
    · simp [h5]
    simp [h1, h2, h3, h4, h5]
  refine ⟨hiff, fun h => ?_⟩
  simp [ evaluate_postfix, eval_loop, eval_step, hiff.2 h]

/-- Witness for C8: the symbol `%` is rejected as an unknown operator. -/
theorem C8_unknown_operator_witness :
    '%' ∉ ['+', '-', '*', '/', '^']
      ∧ evaluate_postfix exactOps [Token.Number (7 : ℚ), Token.Number 2, Token.Operator '%']
          = .error Failure.unknown_operator :=
  ⟨by decide, (C8_unknown_operator exactOps (7 : ℚ) 2 '%').2 (by decide)⟩

/-! ### The empty line -/

/-- C9 (what the code does on the empty line): `tokenize("")` is the empty
sequence and `infix_to_postfix` of it is the empty sequence, but
`evaluate_postfix` of the empty sequence reaches `values.top()` of main.cpp:105
with an empty value stack: it reads the top of an empty `std::stack`, which is
undefined behaviour, and throws no exception that `main` could report. -/
theorem C9_empty_line_reads_empty_stack {α : Type} (G : NumGet α) (D : DoubleOps α) :
    tokenize G "" = []
      ∧ infix_to_postfix ([] : List (Token α)) = .ok []
      ∧ eval_loop D ([] : List (Token α)) [] = .ok []
      ∧ evaluate_postfix D ([] : List (Token α)) = .error Failure.empty_stack
      ∧ evaluate_line G D "" = .error Failure.empty_stack := by
  refine ⟨rfl, rfl, rfl, rfl, rfl⟩

/-! ### Sequences of numbers -/

theorem convert_loop_numbers {α : Type} (ns : List α) (out operators : List (Token α)) :
    convert_loop (ns.map Token.Number) out operators
      = .ok (out ++ ns.map Token.Number, operators) := by
  induction ns generalizing out with
  | nil => simp [convert_loop]
  | cons n ns ih =>
    simp only [List.map_cons]
    rw [convert_loop_number, ih]
    simp

/-- C10: on a token sequence that consists only of `Number` tokens (the empty
sequence included) `infix_to_postfix` returns the sequence unchanged, so that
converting the result once more gives the same result again. -/
theorem C10_numbers_unchanged {α : Type} (ns : List α) :
    infix_to_postfix (ns.map Token.Number) = .ok (ns.map Token.Number)
      ∧ (match infix_to_postfix (ns.map Token.Number) with
          | .ok once => infix_to_postfix once
          | .error e => .error e)
        = infix_to_postfix (ns.map (Token.Number : α → Token α)) := by
  have h : infix_to_postfix (ns.map Token.Number) = .ok (ns.map (Token.Number : α → Token α)) := by
    simp [ infix_to_postfix, convert_loop_numbers, drain]
  refine ⟨h, ?_⟩
  rw [h]
  exact h

/-! ### The lexer -/

/-- On a text without digits, without `.` and without the NUL character the
lexer is the symbol scan of the specification. -/
theorem tokenize_loop_symbols {α : Type} (G : NumGet α) (cs : List Char)
    (h : ∀ c ∈ cs, isdigit c = false ∧ c ≠ '.' ∧ c ≠ '\x00') :
    tokenize_loop G 0 cs = symbol_scan cs := by
  induction cs with
  | nil => simp [tokenize_loop, symbol_scan]
  | cons c cs ih =>
    have ih' := ih (fun d hd => h d (List.mem_cons_of_mem _ hd))
    obtain ⟨hdig, hdot, hnul⟩ := h c (List.mem_cons_self _ _)
    by_cases h1 : c = '+'
    · subst h1; simp [tokenize_loop, symbol_scan, isspace, isdigit, strchr_operators, ih']
    by_cases h2 : c = '-'
    · subst h2; simp [tokenize_loop, symbol_scan, isspace, isdigit, strchr_operators, ih']
    by_cases h3 : c = '*'
    · subst h3; simp [tokenize_loop, symbol_scan, isspace, isdigit, strchr_operators, ih']
    by_cases h4 : c = '/'
    · subst h4; simp [tokenize_loop, symbol_scan, isspace, isdigit, strchr_operators, ih']
    by_cases h5 : c = '^'
    · subst h5; simp [tokenize_loop, symbol_scan, isspace, isdigit, strchr_operators, ih']
    by_cases h6 : c = '('
    · subst h6; simp [tokenize_loop, symbol_scan, isspace, isdigit, strchr_operators, ih']
    by_cases h7 : c = ')'
    · subst h7; simp [tokenize_loop, symbol_scan, isspace, isdigit, strchr_operators, ih']
    simp [tokenize_loop, symbol_scan, strchr_operators, hdig, hdot, hnul, h1, h2, h3, h4, h5,
      h6, h7, ih']

/-- C11 (what the code does on the failing input): on the one-character text
consisting of the NUL character, which contains no digit and no `.`,
`tokenize` produces an `Operator` token whose symbol is NUL, because
`std::strchr("+-*/^", ch)` of main.cpp:50 also finds the terminating NUL of the
string literal; the scan described by the claim drops that character and
produces nothing, and NUL is none of `+ - * / ^`. -/
theorem C11_nul_becomes_operator {α : Type} (G : NumGet α) :
    tokenize G "\x00" = [Token.Operator '\x00']
      ∧ (symbol_scan "\x00".data : List (Token α)) = []
      ∧ (∀ c ∈ "\x00".data, isdigit c = false ∧ c ≠ '.')
      ∧ '\x00' ∉ ['+', '-', '*', '/', '^'] := by
  refine ⟨rfl, rfl, ?_, by decide⟩
  intro c hc
  have hc' : c = '\x00' := by simpa using hc
  subst hc'
  exact ⟨rfl, by decide⟩

/-- C12: `precedence` is 3 for `^`, 2 for `*` and `/`, 1 for `+` and `-`, and 0
for every other character; so it is 0 exactly for the characters that are not
one of the five operator symbols, and every operator symbol has a strictly
higher precedence than every other character. -/
theorem C12_precedence_table :
    precedence '^' = 3 ∧ precedence '*' = 2 ∧ precedence '/' = 2
      ∧ precedence '+' = 1 ∧ precedence '-' = 1
      ∧ (∀ c : Char, precedence c = 0 ↔ c ∉ ['+', '-', '*', '/', '^'])
      ∧ (∀ c u : Char, c ∈ ['+', '-', '*', '/', '^'] → u ∉ ['+', '-', '*', '/', '^'] →
          precedence u < precedence c) := by
  have hzero : ∀ c : Char, precedence c = 0 ↔ c ∉ ['+', '-', '*', '/', '^'] := by
    intro c
    simp only [List.mem_cons, List.mem_singleton, List.not_mem_nil, or_false, not_or]
    unfold precedence
    by_cases h1 : c = '^'
    · simp [h1]
    by_cases h2 : c = '*'
    · simp [h2]
    by_cases h3 : c = '/'
    · simp [h3]
    by_cases h4 : c = '+'
    · simp [h4]
    by_cases h5 : c = '-'
    · simp [h5]
    simp [h1, h2, h3, h4, h5]
  refine ⟨rfl, rfl, rfl, rfl, rfl, hzero, ?_⟩
  intro c u hc hu
  rw [(hzero u).2 hu]
  rcases Nat.eq_zero_or_pos (precedence c) with h0 | hpos
  · exact absurd hc ((hzero c).1 h0)
  · exact hpos

/-- Witness for C12: `%` is not an operator symbol and ranks below `+`. -/
theorem C12_precedence_table_witness :
    '+' ∈ ['+', '-', '*', '/', '^'] ∧ '%' ∉ ['+', '-', '*', '/', '^']
      ∧ precedence '%' < precedence '+' :=
  ⟨by decide, by decide, C12_precedence_table.2.2.2.2.2.2 '+' '%' (by decide) (by decide)⟩

theorem isdigit_not_isspace (d : Char) (hd : isdigit d = true) : isspace d = false := by
  cases hs : isspace d with
  | false => rfl
  | true =>
    simp only [isspace, Bool.or_eq_true, decide_eq_true_eq] at hs
    rcases hs with ((((rfl | rfl) | rfl) | rfl) | rfl) | rfl <;> exact absurd hd (by decide)

theorem tokenize_loop_skip_spaces {α : Type} (G : NumGet α) (ws cs : List Char)
    (h : ∀ c ∈ ws, isspace c = true) :
    tokenize_loop G 0 (ws ++ cs) = tokenize_loop G 0 cs := by
  induction ws with
  | nil => rfl
  | cons w ws ih =>
    have hw := h w (List.mem_cons_self _ _)
    simp only [List.cons_append, tokenize_loop, hw, if_true]
    exact ih (fun c hc => h c (List.mem_cons_of_mem _ hc))

theorem tokenize_loop_digit {α : Type} (G : NumGet α) (d : Char) (rest : List Char)
    (hd : isdigit d = true) :
    ∃ more, tokenize_loop G 0 (d :: rest) = Token.Number (G.extract (d :: rest)).1 :: more := by
  have hs := isdigit_not_isspace d hd
  rcases hx : G.extract (d :: rest) with ⟨num, used, good⟩
  cases good with
  | true => exact ⟨tokenize_loop G used rest, by simp [tokenize_loop, hs, hd, hx]⟩
  | false => exact ⟨[], by simp [tokenize_loop, hs, hd, hx]⟩

/-- Every `Number` token of the lexer holds the value that `stream >> num` stored
when it was started at a digit or at `.`; it is never started at a sign. -/
theorem tokenize_loop_number_source {α : Type} (G : NumGet α) (cs : List Char) (skip : Nat)
    (v : α) (h : Token.Number v ∈ tokenize_loop G skip cs) :
    ∃ c rest, (isdigit c = true ∨ c = '.') ∧ v = (G.extract (c :: rest)).1 := by
  induction cs generalizing skip with
  | nil => simp [tokenize_loop] at h
  | cons c cs ih =>
    cases skip with
    | succ k =>
      simp only [tokenize_loop] at h
      exact ih k h
    | zero =>
      simp only [tokenize_loop] at h
      split at h
      · exact ih 0 h
      · split at h
        · rename_i hstart
          have hstart' : isdigit c = true ∨ c = '.' := by simpa using hstart
          split at h
          · rename_i num used hx
            rcases List.mem_cons.1 h with heq | hmem
            · refine ⟨c, cs, hstart', ?_⟩
              simp only [Token.Number.injEq] at heq
              rw [hx, heq]
            · exact ih used hmem
          · rename_i num used hx
            simp only [List.mem_singleton, Token.Number.injEq] at h
            refine ⟨c, cs, hstart', ?_⟩
            rw [hx, h]
        · split at h
          · rcases List.mem_cons.1 h with heq | hmem
            · cases heq
            · exact ih 0 hmem
          · split at h
            · rcases List.mem_cons.1 h with heq | hmem
              · cases heq
              · exact ih 0 hmem
            · exact ih 0 h

theorem decimalGet_nonneg (cs : List Char) : 0 ≤ (decimalGet.extract cs).1 := by
  simp only [decimalGet]
  split
  · split
    · exact le_refl _
    · positivity
  · split
    · exact le_refl _
    · positivity

/-- C13: the lexer never passes a sign to the numeric extraction.  Every `Number`
token holds a value that `stream >> num` stored when started at a digit or at
`.`; so, numeric extraction of such unsigned text being non-negative, every
`Number` token of every text has a non-negative value.  And a `-` that is the
first non-whitespace character and is followed (after optional whitespace) by
a digit yields an `Operator` token `-` followed by a `Number` token. -/
theorem C13_sign_not_consumed {α : Type} [Zero α] [LE α] (G : NumGet α)
    (hG : ∀ c rest, (isdigit c = true ∨ c = '.') → 0 ≤ (G.extract (c :: rest)).1) :
    (∀ (text : String) (v : α), Token.Number v ∈ tokenize G text → 0 ≤ v)
      ∧ (∀ (ws1 ws2 rest : List Char) (d : Char),
          (∀ c ∈ ws1, isspace c = true) → (∀ c ∈ ws2, isspace c = true) → isdigit d = true →
          ∃ more, tokenize G (String.mk (ws1 ++ '-' :: (ws2 ++ d :: rest)))
            = Token.Operator '-' :: Token.Number (G.extract (d :: rest)).1 :: more) := by
  constructor
  · intro text v hv
    obtain ⟨c, rest, hc, rfl⟩ := tokenize_loop_number_source G text.data 0 v hv
    exact hG c rest hc
  · intro ws1 ws2 rest d h1 h2 hd
    obtain ⟨more, hmore⟩ := tokenize_loop_digit G d rest hd
    refine ⟨more, ?_⟩
    show tokenize_loop G 0 (ws1 ++ '-' :: (ws2 ++ d :: rest)) = _
    rw [tokenize_loop_skip_spaces G ws1 _ h1]
    have hminus : tokenize_loop G 0 ('-' :: (ws2 ++ d :: rest))
        = Token.Operator '-' :: tokenize_loop G 0 (ws2 ++ d :: rest) := by
      simp [tokenize_loop, isspace, isdigit, strchr_operators]
    rw [hminus, tokenize_loop_skip_spaces G ws2 _ h2, hmore]

/-- Witness for C13: `-3` tokenizes to the operator `-` followed by the number
`3`, and that number is non-negative. -/
theorem C13_sign_not_consumed_witness :
    (∀ c rest, (isdigit c = true ∨ c = '.') → 0 ≤ (decimalGet.extract (c :: rest)).1)
      ∧ tokenize decimalGet "-3" = [Token.Operator '-', Token.Number 3]
      ∧ (∀ v : ℚ, Token.Number v ∈ tokenize decimalGet "-3" → 0 ≤ v)
      ∧ ∃ more, tokenize decimalGet (String.mk ([] ++ '-' :: ([] ++ '3' :: [])))
          = Token.Operator '-' :: Token.Number (decimalGet.extract ('3' :: [])).1 :: more :=
  ⟨fun c rest _ => decimalGet_nonneg (c :: rest),
   by decide,
   (C13_sign_not_consumed decimalGet (fun c rest _ => decimalGet_nonneg (c :: rest))).1 "-3",
   (C13_sign_not_consumed decimalGet (fun c rest _ => decimalGet_nonneg (c :: rest))).2
     [] [] [] '3' (by simp) (by simp) (by decide)⟩

/-! ### Parenthesis balance and the operator stack -/

theorem pop_higher_split {α : Type} (op : Char) (operators out : List (Token α)) :
    ∃ pre rest, operators = pre ++ rest ∧ pop_higher op out operators = (out ++ pre, rest)
      ∧ ∀ t ∈ pre, t.is_operator = true := by
  induction operators generalizing out with
  | nil => exact ⟨[], [], rfl, by simp [pop_higher], by simp⟩
  | cons top operators ih =>
    cases top with
    | Number v => exact ⟨[], Token.Number v :: operators, rfl, by simp [pop_higher], by simp⟩
    | Parenthesis s =>
      exact ⟨[], Token.Parenthesis s :: operators, rfl, by simp [pop_higher], by simp⟩
    | Operator top_op =>
      by_cases hp : precedence top_op ≥ precedence op
      · obtain ⟨pre, rest, hsplit, hpop, hpre⟩ := ih (out ++ [Token.Operator top_op])
        refine ⟨Token.Operator top_op :: pre, rest, by simp [hsplit], ?_, ?_⟩
        · simp [pop_higher, hp, hpop]
        · intro t ht
          rcases List.mem_cons.1 ht with rfl | ht
          · rfl
          · exact hpre t ht
      · exact ⟨[], Token.Operator top_op :: operators, rfl, by simp [pop_higher, hp], by simp⟩

theorem pop_to_parenthesis_split {α : Type} (operators out : List (Token α)) :
    ∃ pre rest, operators = pre ++ rest ∧ pop_to_parenthesis out operators = (out ++ pre, rest)
      ∧ (∀ t ∈ pre, t.is_parenthesis = false)
      ∧ (rest = [] ∨ ∃ s below, rest = Token.Parenthesis s :: below) := by
  induction operators generalizing out with
  | nil => exact ⟨[], [], rfl, by simp [pop_to_parenthesis], by simp, Or.inl rfl⟩
  | cons top operators ih =>
    cases top with
    | Parenthesis s =>
      exact ⟨[], Token.Parenthesis s :: operators, rfl, by simp [pop_to_parenthesis], by simp,
        Or.inr ⟨s, operators, rfl⟩⟩
    | Number v =>
      obtain ⟨pre, rest, hsplit, hpop, hpre, hrest⟩ := ih (out ++ [Token.Number v])
      refine ⟨Token.Number v :: pre, rest, by simp [hsplit], ?_, ?_, hrest⟩
      · simp [pop_to_parenthesis, hpop]
      · intro t ht
        rcases List.mem_cons.1 ht with rfl | ht
        · rfl
        · exact hpre t ht
    | Operator o =>
      obtain ⟨pre, rest, hsplit, hpop, hpre, hrest⟩ := ih (out ++ [Token.Operator o])
      refine ⟨Token.Operator o :: pre, rest, by simp [hsplit], ?_, ?_, hrest⟩
      · simp [pop_to_parenthesis, hpop]
      · intro t ht
        rcases List.mem_cons.1 ht with rfl | ht
        · rfl
        · exact hpre t ht

theorem parens_eq_zero_of_not_parenthesis {α : Type} (pre : List (Token α))
    (h : ∀ t ∈ pre, t.is_parenthesis = false) : parens pre = 0 := by
  simp only [parens, List.countP_eq_zero]
  intro t ht
  simp [h t ht]

theorem parens_eq_zero_of_operator {α : Type} (pre : List (Token α))
    (h : ∀ t ∈ pre, t.is_operator = true) : parens pre = 0 := by
  apply parens_eq_zero_of_not_parenthesis
  intro t ht
  have := h t ht
  cases t <;> simp_all [Token.is_operator, Token.is_parenthesis]

/-- A step of the converter fails only on a `)` that finds no `Parenthesis` on the
stack, and then with the empty-stack pop. -/
theorem convert_step_error {α : Type} (out operators : List (Token α)) (t : Token α)
    (e : Failure) (h : convert_step out operators t = .error e) :
    e = Failure.empty_stack ∧ t.is_close = true ∧ t.is_open = false ∧ parens operators = 0 := by
  cases t with
  | Number v => simp [convert_step] at h
  | Operator op => simp [convert_step] at h
  | Parenthesis s =>
    simp only [convert_step] at h
    split at h
    · cases h
    · rename_i hopen
      split at h
      · rename_i hclose
        obtain ⟨pre, rest, hsplit, hpop, hpre, hrest⟩ := pop_to_parenthesis_split operators out
        rw [hpop] at h
        split at h
        · rename_i hnil
          simp only [Except.error.injEq] at h
          simp only at hnil
          refine ⟨h.symm, by simp [Token.is_close, hclose], by simp [Token.is_open, hopen], ?_⟩
          rw [hsplit, hnil, List.append_nil]
          exact parens_eq_zero_of_not_parenthesis pre hpre
        · cases h
      · cases h

/-- How a successful step of the converter changes the number of `Parenthesis`
tokens on the stack. -/
theorem convert_step_parens {α : Type} (out operators out' operators' : List (Token α))
    (t : Token α) (h : convert_step out operators t = .ok (out', operators')) :
    parens operators' + (if t.is_close = true then 1 else 0)
      = parens operators + (if t.is_open = true then 1 else 0) := by
  cases t with
  | Number v =>
    simp only [convert_step, Except.ok.injEq, Prod.mk.injEq] at h
    obtain ⟨-, rfl⟩ := h
    simp [Token.is_close, Token.is_open]
  | Operator op =>
    obtain ⟨pre, rest, hsplit, hpop, hpre⟩ := pop_higher_split op operators out
    simp only [convert_step, hpop, Except.ok.injEq, Prod.mk.injEq] at h
    obtain ⟨-, rfl⟩ := h
    have h0 := parens_eq_zero_of_operator pre hpre
    simp only [parens] at h0
    simp [Token.is_close, Token.is_open, parens, hsplit, List.countP_cons, Token.is_parenthesis,
      h0]
  | Parenthesis s =>
    simp only [convert_step] at h
    split at h
    · rename_i hopen
      simp only [Except.ok.injEq, Prod.mk.injEq] at h
      obtain ⟨-, rfl⟩ := h
      subst hopen
      simp [Token.is_close, Token.is_open, parens, List.countP_cons, Token.is_parenthesis]
    · rename_i hopen
      split at h
      · rename_i hclose
        obtain ⟨pre, rest, hsplit, hpop, hpre, hrest⟩ := pop_to_parenthesis_split operators out
        rw [hpop] at h
        split at h
        · cases h
        · rename_i top below hcons
          simp only [Except.ok.injEq, Prod.mk.injEq] at h
          obtain ⟨-, rfl⟩ := h
          simp only at hcons
          have h0 := parens_eq_zero_of_not_parenthesis pre hpre
          simp only [parens] at h0
          rcases hrest with hnil | ⟨s', below', hb⟩
          · rw [hnil] at hcons
            cases hcons
          · rw [hb] at hcons
            simp only [List.cons.injEq] at hcons
            obtain ⟨-, rfl⟩ := hcons
            subst hclose
            simp [Token.is_close, Token.is_open, parens, hsplit, hb, List.countP_cons,
              Token.is_parenthesis, h0]
      · rename_i hclose
        simp only [Except.ok.injEq, Prod.mk.injEq] at h
        obtain ⟨-, rfl⟩ := h
        simp [Token.is_close, Token.is_open, hopen, hclose]

/-- A `)` met with no `Parenthesis` on the stack pops the empty stack. -/
theorem convert_step_underflow {α : Type} (out operators : List (Token α)) (t : Token α)
    (hclose : t.is_close = true) (h0 : parens operators = 0) :
    convert_step out operators t = .error Failure.empty_stack := by
  cases hstep : convert_step out operators t with
  | error e => rw [(convert_step_error out operators t e hstep).1]
  | ok st =>
    obtain ⟨o1, s1⟩ := st
    have hp := convert_step_parens out operators o1 s1 t hstep
    have hopen : t.is_open = false := by
      cases t with
      | Number v => rfl
      | Operator op => rfl
      | Parenthesis s =>
        simp only [Token.is_close, decide_eq_true_eq] at hclose
        subst hclose
        rfl
    simp only [hclose, hopen, h0, if_true] at hp
    simp at hp

theorem convert_loop_error_kind {α : Type} (tokens out operators : List (Token α)) (e : Failure)
    (h : convert_loop tokens out operators = .error e) : e = Failure.empty_stack := by
  induction tokens generalizing out operators with
  | nil => simp [convert_loop] at h
  | cons t tokens ih =>
    simp only [convert_loop] at h
    cases hstep : convert_step out operators t with
    | error e1 =>
      rw [hstep] at h
      simp only [Except.error.injEq] at h
      rw [← h]
      exact (convert_step_error out operators t e1 hstep).1
    | ok st =>
      obtain ⟨o1, s1⟩ := st
      rw [hstep] at h
      exact ih o1 s1 h

/-- The main loop pops an empty stack exactly when, counting the `Parenthesis`
tokens already on the stack as open, some prefix of the remaining input has
more `)` than `(`. -/
theorem convert_loop_error_iff {α : Type} (tokens out operators : List (Token α)) :
    convert_loop tokens out operators = .error Failure.empty_stack
      ↔ ∃ n, parens operators + opens (tokens.take n) < closes (tokens.take n) := by
  induction tokens generalizing out operators with
  | nil => simp [convert_loop, closes]
  | cons t tokens ih =>
    simp only [convert_loop]
    cases hstep : convert_step out operators t with
    | error e =>
      obtain ⟨he, hclose, hopen, h0⟩ := convert_step_error out operators t e hstep
      subst he
      simp only [true_iff]
      refine ⟨1, ?_⟩
      simp [opens, closes, List.countP_cons, hclose, hopen, h0]
    | ok st =>
      obtain ⟨o1, s1⟩ := st
      have hp := convert_step_parens out operators o1 s1 t hstep
      simp only
      rw [ih o1 s1]
      constructor
      · rintro ⟨n, hn⟩
        refine ⟨n + 1, ?_⟩
        simp only [List.take_succ_cons, opens, closes, List.countP_cons] at hn ⊢
        split_ifs at hp ⊢ <;> omega
      · rintro ⟨n, hn⟩
        cases n with
        | zero => simp [closes] at hn
        | succ m =>
          refine ⟨m, ?_⟩
          simp only [List.take_succ_cons, opens, closes, List.countP_cons] at hn ⊢
          split_ifs at hp hn <;> omega

/-- The number of `Parenthesis` tokens left on the stack is the excess of `(`
over `)` in the input. -/
theorem convert_loop_parens {α : Type} (tokens out operators out' operators' : List (Token α))
    (h : convert_loop tokens out operators = .ok (out', operators')) :
    parens operators' + closes tokens = parens operators + opens tokens := by
  induction tokens generalizing out operators with
  | nil =>
    simp only [convert_loop, Except.ok.injEq, Prod.mk.injEq] at h
    obtain ⟨-, rfl⟩ := h
    simp [opens, closes]
  | cons t tokens ih =>
    simp only [convert_loop] at h
    cases hstep : convert_step out operators t with
    | error e => rw [hstep] at h; cases h
    | ok st =>
      obtain ⟨o1, s1⟩ := st
      rw [hstep] at h
      have hp := convert_step_parens out operators o1 s1 t hstep
      have hi := ih o1 s1 h
      simp only [opens, closes, List.countP_cons] at hi ⊢
      split_ifs at hp ⊢ <;> omega

/-! ### Parentheses in the output of the converter -/

theorem parens_eq_zero_of_ne_parenthesis {α : Type} (xs : List (Token α))
    (h : ∀ t ∈ xs, ∀ s, t ≠ Token.Parenthesis s) : parens xs = 0 := by
  apply parens_eq_zero_of_not_parenthesis
  intro t ht
  cases t with
  | Number v => rfl
  | Operator op => rfl
  | Parenthesis s => exact absurd rfl (h _ ht s)

theorem ne_parenthesis_of_parens_eq_zero {α : Type} (xs : List (Token α))
    (h : parens xs = 0) : ∀ t ∈ xs, ∀ s, t ≠ Token.Parenthesis s := by
  simp only [parens, List.countP_eq_zero] at h
  intro t ht s hs
  subst hs
  exact h _ ht rfl

/-- In a sequence whose only `Parenthesis` tokens are `(`, there is no `)` and
the `(` tokens are all the `Parenthesis` tokens. -/
theorem closes_opens_of_only_open {α : Type} (xs : List (Token α))
    (h : ∀ t ∈ xs, ∀ s, t = Token.Parenthesis s → s = '(') :
    closes xs = 0 ∧ opens xs = parens xs := by
  induction xs with
  | nil => simp [closes, opens, parens]
  | cons t xs ih =>
    obtain ⟨h1, h2⟩ := ih (fun u hu => h u (List.mem_cons_of_mem _ hu))
    simp only [closes, opens, parens] at h1 h2 ⊢
    cases t with
    | Number v =>
      simp [List.countP_cons, Token.is_close, Token.is_open, Token.is_parenthesis, h1, h2]
    | Operator op =>
      simp [List.countP_cons, Token.is_close, Token.is_open, Token.is_parenthesis, h1, h2]
    | Parenthesis s =>
      have hs : s = '(' := h _ (List.mem_cons_self _ _) s rfl
      subst hs
      simp [List.countP_cons, Token.is_close, Token.is_open, Token.is_parenthesis, h1, h2]

/-- C3, as the claim states it, fails: for the tokens `(` `2` the operator stack
still holds the unmatched `(` at the end of the input, and the final drain
appends it to the output. -/
theorem C3_unmatched_open_is_emitted :
    infix_to_postfix [Token.Parenthesis '(', Token.Number (2 : ℚ)]
        = .ok [Token.Number 2, Token.Parenthesis '(']
      ∧ ¬ (∀ out, infix_to_postfix [Token.Parenthesis '(', Token.Number (2 : ℚ)] = .ok out →
            ∀ t ∈ out, ∀ s, t ≠ Token.Parenthesis s) := by
  have h : infix_to_postfix [Token.Parenthesis '(', Token.Number (2 : ℚ)]
      = .ok [Token.Number 2, Token.Parenthesis '('] := by
    simp [ infix_to_postfix, convert_loop, convert_step, drain]
  refine ⟨h, fun hall => ?_⟩
  exact hall _ h (Token.Parenthesis '(') (by simp) '(' rfl

/-- C3 (amended): whenever `infix_to_postfix` completes, its output is what the
main loop emitted followed by what the final drain moved from the operator
stack.  The part emitted by the main loop holds only `Number` and `Operator`
tokens; the drained part holds no `Parenthesis` token other than `(`; so the
output holds no `)`, and every `Parenthesis` token of the output is a `(` from
the drained stack.  These are exactly the unmatched `(` of the input: the
number of `Parenthesis` tokens in the output, all of them `(`, is the number of
`(` tokens of the input minus the number of its `)` tokens.  Hence an input
with as many `)` as `(` gives an output of `Number` and `Operator` tokens only,
and an input with more `(` than `)` gives an output that does contain `(`. -/
theorem C3_only_unmatched_open_emitted {α : Type} (tokens out : List (Token α))
    (h : infix_to_postfix tokens = .ok out) :
    (∃ emitted stack, convert_loop tokens [] [] = .ok (emitted, stack)
      ∧ out = emitted ++ stack
      ∧ (∀ t ∈ emitted, ∀ s, t ≠ Token.Parenthesis s)
      ∧ (∀ t ∈ stack, ∀ s, t = Token.Parenthesis s → s = '(')
      ∧ (∀ t ∈ out, ∀ s, t = Token.Parenthesis s → s = '(' ∧ t ∈ stack)
      ∧ parens stack + closes tokens = opens tokens)
      ∧ closes out = 0
      ∧ opens out = parens out
      ∧ parens out + closes tokens = opens tokens
      ∧ (opens tokens = closes tokens → ∀ t ∈ out, ∀ s, t ≠ Token.Parenthesis s)
      ∧ (closes tokens < opens tokens → Token.Parenthesis '(' ∈ out) := by
  simp only [ infix_to_postfix] at h
  cases hl : convert_loop tokens [] [] with
  | error e => rw [hl] at h; cases h
  | ok st =>
    obtain ⟨emitted, stack⟩ := st
    rw [hl] at h
    simp only [Except.ok.injEq, drain_eq_append] at h
    have hinv := convert_loop_invariant tokens [] [] emitted stack
      ⟨fun t ht => (by cases ht), fun t ht => (by cases ht)⟩ hl
    have hstack : parens stack + closes tokens = opens tokens := by
      have hp := convert_loop_parens tokens [] [] emitted stack hl
      simpa [parens] using hp
    have hmem : ∀ t ∈ out, ∀ s, t = Token.Parenthesis s → s = '(' ∧ t ∈ stack := by
      intro t ht s hs
      rw [← h] at ht
      rcases List.mem_append.1 ht with ht | ht
      · exact absurd hs (hinv.1 t ht s)
      · exact ⟨hinv.2 t ht s hs, ht⟩
    have hco := closes_opens_of_only_open out (fun t ht s hs => (hmem t ht s hs).1)
    have hout : parens out + closes tokens = opens tokens := by
      have he := parens_eq_zero_of_ne_parenthesis emitted hinv.1
      rw [← h]
      simp only [parens, List.countP_append] at he hstack ⊢
      omega
    refine ⟨⟨emitted, stack, rfl, h.symm, hinv.1, hinv.2, hmem, hstack⟩, hco.1, hco.2, hout,
      ?_, ?_⟩
    · intro hbal
      exact ne_parenthesis_of_parens_eq_zero out (by omega)
    · intro hlt
      have hpos : 0 < opens out := by rw [hco.2]; omega
      simp only [opens, List.countP_pos_iff] at hpos
      obtain ⟨t, ht, hopen⟩ := hpos
      cases t with
      | Number v => simp [Token.is_open] at hopen
      | Operator op => simp [Token.is_open] at hopen
      | Parenthesis s =>
        simp only [Token.is_open, decide_eq_true_eq] at hopen
        subst hopen
        exact ht

/-- Witness for C3 (amended): the tokens `(` `2` have one unmatched `(` and
convert to `2` `(`; the balanced tokens `(` `2` `)` convert to `2`. -/
theorem C3_only_unmatched_open_emitted_witness :
    ( infix_to_postfix [Token.Parenthesis '(', Token.Number (2 : ℚ)]
        = .ok [Token.Number 2, Token.Parenthesis '(']
      ∧ closes [Token.Parenthesis '(', Token.Number (2 : ℚ)]
          < opens [Token.Parenthesis '(', Token.Number (2 : ℚ)]
      ∧ parens [Token.Number (2 : ℚ), Token.Parenthesis '(']
            + closes [Token.Parenthesis '(', Token.Number (2 : ℚ)]
          = opens [Token.Parenthesis '(', Token.Number (2 : ℚ)]
      ∧ Token.Parenthesis '(' ∈ [Token.Number (2 : ℚ), Token.Parenthesis '('])
      ∧ ( infix_to_postfix [Token.Parenthesis '(', Token.Number (2 : ℚ), Token.Parenthesis ')']
        = .ok [Token.Number 2]
      ∧ opens [Token.Parenthesis '(', Token.Number (2 : ℚ), Token.Parenthesis ')']
          = closes [Token.Parenthesis '(', Token.Number (2 : ℚ), Token.Parenthesis ')']
      ∧ ∀ t ∈ [Token.Number (2 : ℚ)], ∀ s, t ≠ Token.Parenthesis s) :=
  ⟨⟨rfl, by decide,
    (C3_only_unmatched_open_emitted [Token.Parenthesis '(', Token.Number (2 : ℚ)]
      [Token.Number 2, Token.Parenthesis '('] rfl).2.2.2.1,
    (C3_only_unmatched_open_emitted [Token.Parenthesis '(', Token.Number (2 : ℚ)]
      [Token.Number 2, Token.Parenthesis '('] rfl).2.2.2.2.2 (by decide)⟩,
   ⟨rfl, by decide,
    (C3_only_unmatched_open_emitted
      [Token.Parenthesis '(', Token.Number (2 : ℚ), Token.Parenthesis ')']
      [Token.Number 2] rfl).2.2.2.2.1 (by decide)⟩⟩

/-- C14: `infix_to_postfix` pops an empty operator stack if and only if some
prefix of the input has more `)` tokens than `(` tokens; this is the only way
in which it can fail, so on every input all of whose prefixes have at least as
many `(` as `)` each `)` finds a `(` on the stack and the conversion
completes. -/
theorem C14_underflow_iff_unbalanced {α : Type} (tokens : List (Token α)) :
    ( infix_to_postfix tokens = .error Failure.empty_stack
        ↔ ∃ n, opens (tokens.take n) < closes (tokens.take n))
      ∧ ((∀ n, closes (tokens.take n) ≤ opens (tokens.take n)) →
          ∃ out, infix_to_postfix tokens = .ok out) := by
  have hiff := convert_loop_error_iff tokens [] []
  simp only [parens, List.countP_nil, Nat.zero_add] at hiff
  have hinf : infix_to_postfix tokens = .error Failure.empty_stack
      ↔ convert_loop tokens [] [] = .error Failure.empty_stack := by
    simp only [ infix_to_postfix]
    cases hl : convert_loop tokens [] [] with
    | error e => simp
    | ok st => simp
  refine ⟨hinf.trans hiff, fun hbal => ?_⟩
  cases hl : convert_loop tokens [] [] with
  | error e =>
    have he := convert_loop_error_kind tokens [] [] e hl
    subst he
    obtain ⟨n, hn⟩ := hiff.1 hl
    exact absurd (hbal n) (Nat.not_le.2 hn)
  | ok st =>
    obtain ⟨o1, s1⟩ := st
    exact ⟨drain o1 s1, by simp [ infix_to_postfix, hl]⟩

/-- Witness for C14: `( 2 )` is balanced and converts; `2 )` has a prefix with
more `)` than `(` and pops the empty stack. -/
theorem C14_underflow_iff_unbalanced_witness :
    (∀ n, closes ([Token.Parenthesis '(', Token.Number (2 : ℚ), Token.Parenthesis ')'].take n)
        ≤ opens ([Token.Parenthesis '(', Token.Number (2 : ℚ), Token.Parenthesis ')'].take n))
      ∧ (∃ out, infix_to_postfix [Token.Parenthesis '(', Token.Number (2 : ℚ),
          Token.Parenthesis ')'] = .ok out)
      ∧ (∃ n, opens ([Token.Number (2 : ℚ), Token.Parenthesis ')'].take n)
          < closes ([Token.Number (2 : ℚ), Token.Parenthesis ')'].take n))
      ∧ infix_to_postfix [Token.Number (2 : ℚ), Token.Parenthesis ')']
          = .error Failure.empty_stack := by
  have hbal : ∀ n,
      closes ([Token.Parenthesis '(', Token.Number (2 : ℚ), Token.Parenthesis ')'].take n)
        ≤ opens ([Token.Parenthesis '(', Token.Number (2 : ℚ), Token.Parenthesis ')'].take n) := by
    intro n
    rcases n with _ | _ | _ | _ | n <;>
      simp [opens, closes, List.countP_cons, Token.is_open, Token.is_close]
  have hun : ∃ n, opens ([Token.Number (2 : ℚ), Token.Parenthesis ')'].take n)
      < closes ([Token.Number (2 : ℚ), Token.Parenthesis ')'].take n) :=
    ⟨2, by simp [opens, closes, List.countP_cons, Token.is_open, Token.is_close]⟩
  exact ⟨hbal, (C14_underflow_iff_unbalanced _).2 hbal, hun,
    (C14_underflow_iff_unbalanced _).1.2 hun⟩

/-! ### Underflow of the value stack -/

/-- C15 (what the code does on the failing inputs): when the loop of
`evaluate_postfix` meets an `Operator` token while the value stack holds no
value or one value, it executes `values.top()` / `values.pop()` of
main.cpp:100-101 on an empty stack, whatever tokens follow: undefined
behaviour, with no exception thrown.  This is what happens on the sequences
`+` and `3 -`, the latter being what the converter produces for the line
`-3`. -/
theorem C15_operator_pops_empty_stack {α : Type} (D : DoubleOps α) (op : Char) (v : α)
    (rest : List (Token α)) :
    eval_loop D (Token.Operator op :: rest) [] = .error Failure.empty_stack
      ∧ eval_loop D (Token.Operator op :: rest) [v] = .error Failure.empty_stack
      ∧ evaluate_postfix D [Token.Operator '+'] = .error Failure.empty_stack
      ∧ evaluate_postfix D [Token.Number v, Token.Operator '-'] = .error Failure.empty_stack
      ∧ infix_to_postfix [Token.Operator '-', Token.Number v]
          = .ok [Token.Number v, Token.Operator '-']
      ∧ tokenize decimalGet "-3" = [Token.Operator '-', Token.Number 3]
      ∧ evaluate_line decimalGet exactOps "-3" = .error Failure.empty_stack := by
  refine ⟨rfl, rfl, rfl, rfl, ?_, by decide, rfl⟩
  simp [ infix_to_postfix, convert_loop, convert_step, pop_higher, drain]

/-! ### Operands keep their order -/

theorem numbers_append {α : Type} (xs ys : List (Token α)) :
    numbers (xs ++ ys) = numbers xs ++ numbers ys := by
  simp [numbers]

theorem numbers_of_not_number {α : Type} (xs : List (Token α))
    (h : ∀ t ∈ xs, t.is_number = false) : numbers xs = [] := by
  simp only [numbers, List.filter_eq_nil_iff]
  intro t ht
  simp [h t ht]

theorem convert_step_numbers {α : Type} (out operators out' operators' : List (Token α))
    (t : Token α) (h : convert_step out operators t = .ok (out', operators'))
    (hs : numbers operators = []) :
    numbers out' = numbers out ++ numbers [t] ∧ numbers operators' = [] := by
  cases t with
  | Number v =>
    simp only [convert_step, Except.ok.injEq, Prod.mk.injEq] at h
    obtain ⟨rfl, rfl⟩ := h
    exact ⟨numbers_append _ _, hs⟩
  | Operator op =>
    obtain ⟨pre, rest, hsplit, hpop, hpre⟩ := pop_higher_split op operators out
    simp only [convert_step, hpop, Except.ok.injEq, Prod.mk.injEq] at h
    obtain ⟨rfl, rfl⟩ := h
    rw [hsplit, numbers_append, List.append_eq_nil] at hs
    refine ⟨?_, ?_⟩
    · rw [numbers_append, hs.1]
      simp [numbers, Token.is_number]
    · simpa [numbers, Token.is_number] using hs.2
  | Parenthesis s =>
    simp only [convert_step] at h
    split at h
    · simp only [Except.ok.injEq, Prod.mk.injEq] at h
      obtain ⟨rfl, rfl⟩ := h
      refine ⟨by simp [numbers, Token.is_number], ?_⟩
      simpa [numbers, Token.is_number] using hs
    · split at h
      · obtain ⟨pre, rest, hsplit, hpop, hpre, hrest⟩ := pop_to_parenthesis_split operators out
        rw [hpop] at h
        split at h
        · cases h
        · rename_i top below hcons
          simp only [Except.ok.injEq, Prod.mk.injEq] at h
          obtain ⟨rfl, rfl⟩ := h
          simp only at hcons
          rw [hsplit, numbers_append, List.append_eq_nil] at hs
          refine ⟨?_, ?_⟩
          · rw [numbers_append, hs.1]
            simp [numbers, Token.is_number]
          · have h2 := hs.2
            rw [hcons] at h2
            simp only [numbers, List.filter_eq_nil_iff] at h2 ⊢
            intro t ht
            exact h2 t (List.mem_cons_of_mem _ ht)
      · simp only [Except.ok.injEq, Prod.mk.injEq] at h
        obtain ⟨rfl, rfl⟩ := h
        exact ⟨by simp [numbers, Token.is_number], hs⟩

theorem convert_loop_numbers_kept {α : Type}
    (tokens out operators out' operators' : List (Token α))
    (h : convert_loop tokens out operators = .ok (out', operators'))
    (hs : numbers operators = []) :
    numbers out' = numbers out ++ numbers tokens ∧ numbers operators' = [] := by
  induction tokens generalizing out operators with
  | nil =>
    simp only [convert_loop, Except.ok.injEq, Prod.mk.injEq] at h
    obtain ⟨rfl, rfl⟩ := h
    exact ⟨by simp [numbers], hs⟩
  | cons t tokens ih =>
    simp only [convert_loop] at h
    cases hstep : convert_step out operators t with
    | error e => rw [hstep] at h; cases h
    | ok st =>
      obtain ⟨o1, s1⟩ := st
      rw [hstep] at h
      obtain ⟨h1, h2⟩ := convert_step_numbers out operators o1 s1 t hstep hs
      obtain ⟨h3, h4⟩ := ih o1 s1 h h2
      refine ⟨?_, h4⟩
      rw [h3, h1, List.append_assoc, ← numbers_append]
      rfl

/-- C16: whenever `infix_to_postfix` completes (without popping an empty stack),
the subsequence of `Number` tokens of its output is the subsequence of
`Number` tokens of its input, in the same order: operands are neither
reordered nor dropped nor duplicated. -/
theorem C16_operands_preserved {α : Type} (tokens out : List (Token α))
    (h : infix_to_postfix tokens = .ok out) : numbers out = numbers tokens := by
  simp only [ infix_to_postfix] at h
  cases hl : convert_loop tokens [] [] with
  | error e => rw [hl] at h; cases h
  | ok st =>
    obtain ⟨o1, s1⟩ := st
    rw [hl] at h
    simp only [Except.ok.injEq, drain_eq_append] at h
    obtain ⟨h1, h2⟩ := convert_loop_numbers_kept tokens [] [] o1 s1 hl rfl
    rw [← h, numbers_append, h1, h2]
    simp [numbers]

/-- Witness for C16 on `2 + 3 * 4`, whose operands stay `2 3 4`. -/
theorem C16_operands_preserved_witness :
    infix_to_postfix [Token.Number (2 : ℚ), Token.Operator '+', Token.Number 3,
        Token.Operator '*', Token.Number 4]
      = .ok [Token.Number 2, Token.Number 3, Token.Number 4, Token.Operator '*',
          Token.Operator '+']
    ∧ numbers [Token.Number (2 : ℚ), Token.Number 3, Token.Number 4, Token.Operator '*',
          Token.Operator '+']
      = numbers [Token.Number (2 : ℚ), Token.Operator '+', Token.Number 3,
          Token.Operator '*', Token.Number 4] :=
  ⟨rfl, C16_operands_preserved _ _ rfl⟩

/-! ### Unclosed parentheses -/

theorem convert_loop_append {α : Type} (xs ys out operators : List (Token α)) :
    convert_loop (xs ++ ys) out operators
      = match convert_loop xs out operators with
        | .ok (out', operators') => convert_loop ys out' operators'
        | .error e => .error e := by
  induction xs generalizing out operators with
  | nil => simp [convert_loop]
  | cons t xs ih =>
    simp only [List.cons_append, convert_loop]
    cases convert_step out operators t with
    | error e => rfl
    | ok st =>
      obtain ⟨o1, s1⟩ := st
      exact ih o1 s1

theorem without_parentheses_self {α : Type} (xs : List (Token α))
    (h : ∀ t ∈ xs, t.is_parenthesis = false) : without_parentheses xs = xs := by
  simp only [without_parentheses, List.filter_eq_self]
  intro t ht
  simp [h t ht]

theorem without_parentheses_append {α : Type} (xs ys : List (Token α)) :
    without_parentheses (xs ++ ys) = without_parentheses xs ++ without_parentheses ys := by
  simp [without_parentheses]

theorem without_parentheses_cons_parenthesis {α : Type} (s : Char) (xs : List (Token α)) :
    without_parentheses (Token.Parenthesis s :: xs) = without_parentheses xs := by
  simp [without_parentheses, Token.is_parenthesis]

theorem not_parenthesis_of_parens_eq_zero {α : Type} (xs : List (Token α))
    (h : parens xs = 0) : ∀ t ∈ xs, t.is_parenthesis = false := by
  simp only [parens, List.countP_eq_zero] at h
  intro t ht
  simpa using h t ht

/-- Closing as many `)` as there are `Parenthesis` tokens on the stack and then
draining emits the stack without its `Parenthesis` tokens. -/
theorem convert_loop_closers {α : Type} (k : Nat) (stack out : List (Token α))
    (hk : parens stack = k) :
    ∃ o s, convert_loop (List.replicate k (Token.Parenthesis ')')) out stack = .ok (o, s)
      ∧ o ++ s = out ++ without_parentheses stack := by
  induction k generalizing stack out with
  | zero =>
    refine ⟨out, stack, by simp [convert_loop], ?_⟩
    rw [without_parentheses_self stack (not_parenthesis_of_parens_eq_zero stack hk)]
  | succ k ih =>
    obtain ⟨pre, rest, hsplit, hpop, hpre, hrest⟩ := pop_to_parenthesis_split stack out
    have hpre0 := parens_eq_zero_of_not_parenthesis pre hpre
    rcases hrest with hnil | ⟨s', below, hb⟩
    · rw [hsplit, hnil, List.append_nil, hpre0] at hk
      cases hk
    · have hbelow : parens below = k := by
        simp only [parens] at hpre0
        rw [hsplit, hb] at hk
        simp only [parens, List.countP_append, List.countP_cons, Token.is_parenthesis, hpre0,
          if_true] at hk
        simp only [parens]
        omega
      obtain ⟨o, s, hconv, hout⟩ := ih below (out ++ pre) hbelow
      refine ⟨o, s, ?_, ?_⟩
      · rw [← hconv]
        simp [List.replicate_succ, convert_loop, convert_step, hpop, hb]
      · rw [hout, hsplit, hb, without_parentheses_append, without_parentheses_cons_parenthesis,
          without_parentheses_self pre hpre, List.append_assoc]

/-- C17: an unclosed `(` behaves as if it were closed at the end of the input.
For every token sequence all of whose prefixes have at least as many `(` as
`)` and which has `k` more `(` than `)` in total, `infix_to_postfix` completes,
and removing the `Parenthesis` tokens from its output gives exactly the output
of `infix_to_postfix` on the sequence followed by `k` tokens `)`. -/
theorem C17_unclosed_as_closed {α : Type} (tokens : List (Token α)) (k : Nat)
    (hbal : ∀ n, closes (tokens.take n) ≤ opens (tokens.take n))
    (hk : opens tokens = closes tokens + k) :
    ∃ out, infix_to_postfix tokens = .ok out
      ∧ infix_to_postfix (tokens ++ List.replicate k (Token.Parenthesis ')'))
          = .ok (without_parentheses out) := by
  cases hl : convert_loop tokens [] [] with
  | error e =>
    have he := convert_loop_error_kind tokens [] [] e hl
    subst he
    obtain ⟨n, hn⟩ := (convert_loop_error_iff tokens [] []).1 hl
    simp only [parens, List.countP_nil, Nat.zero_add] at hn
    exact absurd (hbal n) (Nat.not_le.2 hn)
  | ok st =>
    obtain ⟨o1, s1⟩ := st
    have hp := convert_loop_parens tokens [] [] o1 s1 hl
    have hs1 : parens s1 = k := by
      simp only [parens, List.countP_nil, Nat.zero_add] at hp
      simp only [parens]
      omega
    have hinv := convert_loop_invariant tokens [] [] o1 s1
      ⟨fun t ht => (by cases ht), fun t ht => (by cases ht)⟩ hl
    have ho1 : without_parentheses o1 = o1 := by
      apply without_parentheses_self
      intro t ht
      cases t with
      | Number v => rfl
      | Operator op => rfl
      | Parenthesis s => exact absurd rfl (hinv.1 _ ht s)
    obtain ⟨o, s, hconv, hout⟩ := convert_loop_closers k s1 o1 hs1
    refine ⟨o1 ++ s1, by simp [ infix_to_postfix, hl, drain_eq_append], ?_⟩
    simp only [ infix_to_postfix, convert_loop_append, hl, hconv, drain_eq_append, hout]
    rw [without_parentheses_append, ho1]

/-- Witness for C17: `( 2 + 3` converts to `2 3 + (`, and `( 2 + 3 )` converts
to `2 3 +`. -/
theorem C17_unclosed_as_closed_witness :
    (∀ n, closes ([Token.Parenthesis '(', Token.Number (2 : ℚ), Token.Operator '+',
          Token.Number 3].take n)
        ≤ opens ([Token.Parenthesis '(', Token.Number (2 : ℚ), Token.Operator '+',
          Token.Number 3].take n))
      ∧ opens [Token.Parenthesis '(', Token.Number (2 : ℚ), Token.Operator '+', Token.Number 3]
          = closes [Token.Parenthesis '(', Token.Number (2 : ℚ), Token.Operator '+',
              Token.Number 3] + 1
      ∧ infix_to_postfix [Token.Parenthesis '(', Token.Number (2 : ℚ), Token.Operator '+',
          Token.Number 3]
          = .ok [Token.Number 2, Token.Number 3, Token.Operator '+', Token.Parenthesis '(']
      ∧ ∃ out, infix_to_postfix [Token.Parenthesis '(', Token.Number (2 : ℚ),
            Token.Operator '+', Token.Number 3] = .ok out
          ∧ infix_to_postfix ([Token.Parenthesis '(', Token.Number (2 : ℚ), Token.Operator '+',
              Token.Number 3] ++ List.replicate 1 (Token.Parenthesis ')'))
            = .ok (without_parentheses out) := by
  have hbal : ∀ n, closes ([Token.Parenthesis '(', Token.Number (2 : ℚ), Token.Operator '+',
        Token.Number 3].take n)
      ≤ opens ([Token.Parenthesis '(', Token.Number (2 : ℚ), Token.Operator '+',
        Token.Number 3].take n) := by
    intro n
    rcases n with _ | _ | _ | _ | _ | n <;>
      simp [opens, closes, List.countP_cons, Token.is_open, Token.is_close]
  have hk : opens [Token.Parenthesis '(', Token.Number (2 : ℚ), Token.Operator '+',
        Token.Number 3]
      = closes [Token.Parenthesis '(', Token.Number (2 : ℚ), Token.Operator '+',
          Token.Number 3] + 1 := by
    simp [opens, closes, List.countP_cons, Token.is_open, Token.is_close]
  exact ⟨hbal, hk, rfl, C17_unclosed_as_closed _ 1 hbal hk⟩

/-! ### The evaluator on parentheses and on bare numbers -/

theorem eval_loop_without_parentheses {α : Type} (D : DoubleOps α) (tokens : List (Token α))
    (values : List α) :
    eval_loop D (without_parentheses tokens) values = eval_loop D tokens values := by
  induction tokens generalizing values with
  | nil => rfl
  | cons t tokens ih =>
    cases t with
    | Parenthesis s =>
      simp only [without_parentheses, List.filter_cons, Token.is_parenthesis, Bool.not_true,
        eval_loop, eval_step] at ih ⊢
      exact ih values
    | Number v =>
      simp only [without_parentheses, List.filter_cons, Token.is_parenthesis, Bool.not_false,
        eval_loop, eval_step, if_true] at ih ⊢
      exact ih (v :: values)
    | Operator op =>
      simp only [without_parentheses, List.filter_cons, Token.is_parenthesis, Bool.not_false,
        eval_loop, if_true] at ih ⊢
      cases eval_step D values (Token.Operator op) with
      | error e => rfl
      | ok vs => exact ih vs

/-- C18: `evaluate_postfix` ignores `Parenthesis` tokens: on every token sequence
it gives the same result, value or failure, as on the sequence with all
`Parenthesis` tokens removed. -/
theorem C18_evaluator_ignores_parentheses {α : Type} (D : DoubleOps α)
    (tokens : List (Token α)) :
    evaluate_postfix D tokens = evaluate_postfix D (without_parentheses tokens) := by
  simp only [ evaluate_postfix, eval_loop_without_parentheses]

theorem eval_loop_numbers {α : Type} (D : DoubleOps α) (ns values : List α) :
    eval_loop D (ns.map Token.Number) values = .ok (ns.reverse ++ values) := by
  induction ns generalizing values with
  | nil => rfl
  | cons n ns ih =>
    simp only [List.map_cons, eval_loop, eval_step, ih, List.reverse_cons, List.append_assoc,
      List.singleton_append]

/-- C19: `evaluate_postfix` does not check that exactly one value remains.  On
every non-empty sequence of `Number` tokens, written `ns ++ [n]`, the loop
leaves all the values on the stack and the function returns the value `n` of
the last token without error.  In particular the line `2 3` evaluates to
`3`. -/
theorem C19_last_number_returned :
    (∀ (α : Type) (D : DoubleOps α) (ns : List α) (n : α),
        eval_loop D ((ns ++ [n]).map Token.Number) [] = .ok (n :: ns.reverse)
        ∧ evaluate_postfix D ((ns ++ [n]).map Token.Number) = .ok n)
      ∧ tokenize decimalGet "2 3" = [Token.Number 2, Token.Number 3]
      ∧ evaluate_line decimalGet exactOps "2 3" = .ok 3 := by
  refine ⟨fun α D ns n => ?_, by decide, ?_⟩
  · have h := eval_loop_numbers D (ns ++ [n]) []
    simp only [List.reverse_append, List.reverse_cons, List.reverse_nil, List.nil_append,
      List.singleton_append, List.append_nil] at h
    exact ⟨h, by simp only [ evaluate_postfix, h]⟩
  · have ht : tokenize decimalGet "2 3" = [Token.Number 2, Token.Number 3] := by decide
    simp only [evaluate_line, ht]
    rfl

end SMEP
